import Mathlib

/-
Shallow embedding of the reading-session subsystem of the chunkyreader
repository, together with the completion-record reconciliation of
routers/test.py and the chunk parser of routers/addtext.py.

Modelling conventions:
* timestamps are natural numbers (seconds); `datetime.now(timezone.utc)` is an
  explicit `now` argument threaded through each operation;
* the database is a list of rows in insertion order; `select(...).first()` is
  `List.find?`; an ORM object mutation followed by `commit()` is an in-place
  replacement of the first matching row;
* the `conversation_context` column holds a JSON string; it is modelled as
  `Option (List Message)`: `some l` is a string that is valid JSON for the
  list `l` (what `json.dumps` produces), `none` is a malformed string, on
  which `json.loads` raises `JSONDecodeError`;
* a raised `HTTPException(404)` is `Except.error SMError.notFound`.
-/

namespace ChunkyReader

/-- A conversation transcript record `{role, content, type}` as appended by the
callers of the session manager. The JSON key `type` is rendered as `msgType`. -/
structure Message where
  role : String
  content : String
  msgType : String
deriving DecidableEq

/-- The stored `conversation_context` column: `some l` models a string that is
valid JSON encoding the record list `l`; `none` models a malformed string. -/
abbrev StoredContext := Option (List Message)

/-- A row of the `readingsession` table (models.ReadingSession). -/
structure ReadingSession where
  id : Nat
  user_id : Nat
  text_id : Nat
  chunk_id : Nat
  current_question : String
  conversation_context : StoredContext
  created_at : Nat
  expires_at : Nat
  is_completed : Bool
deriving DecidableEq

/-- The reading-session table plus the autoincrement counter that assigns
primary keys to inserted rows. -/
structure DB where
  rows : List ReadingSession
  nextId : Nat
deriving DecidableEq

/-- Errors raised by the session manager: the 404 `HTTPException` of
`update_conversation` and `get_conversation_history`. -/
inductive SMError where
  | notFound
deriving DecidableEq

/-- ReadingSessionManager.SESSION_EXPIRY = timedelta(days=7), in seconds. -/
def SESSION_EXPIRY : Nat := 7 * 24 * 60 * 60

/-- The WHERE clause of `create_or_get_session` / `get_session`: rows of the
(user, text) pair that are not completed. -/
def matchesActive (user_id text_id : Nat) (r : ReadingSession) : Bool :=
  r.user_id == user_id && r.text_id == text_id && r.is_completed == false

/-- The WHERE clause shared by `update_conversation`,
`get_conversation_history` and `complete_session`: row id and owner. -/
def matchesSession (session_id user_id : Nat) (r : ReadingSession) : Bool :=
  r.id == session_id && r.user_id == user_id

/-- Replace the first row satisfying `p` by its image under `f` (an ORM object
mutation followed by commit). -/
def updateFirst {α : Type} (p : α → Bool) (f : α → α) : List α → List α
  | [] => []
  | r :: rs => if p r then f r :: rs else r :: updateFirst p f rs

/-- The `select(ReadingSession).where(id, user_id).first()` lookup. -/
def findSession (rows : List ReadingSession) (session_id user_id : Nat) :
    Option ReadingSession :=
  rows.find? (matchesSession session_id user_id)

/-- Number of rows with `is_completed = false` for a (user, text) pair. -/
def countActive (rows : List ReadingSession) (user_id text_id : Nat) : Nat :=
  (rows.filter (matchesActive user_id text_id)).length

/-- ReadingSessionManager._cleanup_expired_sessions: DELETE FROM readingsession
WHERE expires_at < now. -/
def cleanup_expired_sessions (db : DB) (now : Nat) : DB :=
  { db with rows := db.rows.filter (fun r => !(decide (r.expires_at < now))) }

/-- ReadingSessionManager.create_or_get_session: sweep expired rows, look up an
active session for the pair; if found update its chunk pointer, else insert a
fresh session with an empty transcript and a fresh expiry. -/
def create_or_get_session (db : DB) (now : Nat)
    (user_id text_id chunk_id : Nat) (initial_question : String) :
    DB × ReadingSession :=
  let db1 := cleanup_expired_sessions db now
  match db1.rows.find? (matchesActive user_id text_id) with
  | some existing =>
      ({ db1 with
          rows := updateFirst (matchesActive user_id text_id)
            (fun r => { r with chunk_id := chunk_id }) db1.rows },
        { existing with chunk_id := chunk_id })
  | none =>
      let newSession : ReadingSession :=
        { id := db1.nextId
          user_id := user_id
          text_id := text_id
          chunk_id := chunk_id
          current_question := initial_question
          conversation_context := some []
          created_at := now
          expires_at := now + SESSION_EXPIRY
          is_completed := false }
      ({ rows := db1.rows ++ [newSession], nextId := db1.nextId + 1 },
        newSession)

/-- The row produced by the mutation block of `update_conversation`: the
decoded transcript (malformed JSON decodes to `[]`) with the new record
appended, the optional new question (Python truthiness: `None` and the empty
string both leave `current_question` unchanged), and the expiry reset. -/
def updatedSession (session : ReadingSession) (now : Nat)
    (new_message : Message) (new_question : Option String) : ReadingSession :=
  { session with
      conversation_context :=
        some ((session.conversation_context.getD []) ++ [new_message])
      current_question :=
        match new_question with
        | some q => if q = "" then session.current_question else q
        | none => session.current_question
      expires_at := now + SESSION_EXPIRY }

/-- ReadingSessionManager.update_conversation: look up the row by id and owner
(404 when absent), append the record to the decoded transcript, persist, and
reset the expiry. -/
def update_conversation (db : DB) (now : Nat) (session_id user_id : Nat)
    (new_message : Message) (new_question : Option String) :
    Except SMError (DB × ReadingSession) :=
  match findSession db.rows session_id user_id with
  | none => .error .notFound
  | some session =>
      let updated := updatedSession session now new_message new_question
      .ok ({ db with
              rows := updateFirst (matchesSession session_id user_id)
                (fun _ => updated) db.rows },
            updated)

/-- ReadingSessionManager.get_conversation_history: look up the row by id and
owner (404 when absent) and decode the transcript, treating malformed JSON as
an empty list. -/
def get_conversation_history (db : DB) (session_id user_id : Nat) :
    Except SMError (List Message) :=
  match findSession db.rows session_id user_id with
  | none => .error .notFound
  | some session => .ok (session.conversation_context.getD [])

/-- ReadingSessionManager.complete_session: look up the row by id and owner;
if present mark it completed, otherwise do nothing (no error is raised). -/
def complete_session (db : DB) (session_id user_id : Nat) : DB :=
  match findSession db.rows session_id user_id with
  | some _ =>
      { db with
          rows := updateFirst (matchesSession session_id user_id)
            (fun r => { r with is_completed := true }) db.rows }
  | none => db

/-- Parameters of one `create_or_get_session` call in a serialized call
sequence for a fixed (user, text) pair. -/
structure CallParams where
  now : Nat
  chunk_id : Nat
  initial_question : String
deriving DecidableEq

/-- Serialized execution of a sequence of `create_or_get_session` calls for a
fixed (user, text) pair, threading the database state. -/
def applyCalls (db : DB) (user_id text_id : Nat) : List CallParams → DB
  | [] => db
  | c :: cs =>
      applyCalls
        (create_or_get_session db c.now user_id text_id c.chunk_id
          c.initial_question).1
        user_id text_id cs

/-- A row of the `readingcompletion` table (models.ReadingCompletion). -/
structure ReadingCompletion where
  id : Nat
  student_id : Nat
  text_id : Nat
  completed_at : Nat
  passed : Bool
  ai_feedback : String
  correct_answers : Nat
deriving DecidableEq

/-- The WHERE clause of the completion lookup in `submit_test`. -/
def matchesCompletion (student_id text_id : Nat) (c : ReadingCompletion) :
    Bool :=
  c.student_id == student_id && c.text_id == text_id

/-- The completion-record reconciliation block of routers/test.py
`submit_test`: look up the prior record for (student, text); if present,
overwrite `passed`, `ai_feedback`, `correct_answers` and `completed_at` only
when the new correct count is strictly greater; if absent, insert a new record
(`new_id` models the assigned primary key and `default_completed_at` the
column default of `completed_at`). -/
def reconcile_completion (completions : List ReadingCompletion) (now : Nat)
    (student_id text_id : Nat) (correct : Nat) (feedback : String)
    (new_id default_completed_at : Nat) : List ReadingCompletion :=
  let passed := decide (4 ≤ correct)
  match completions.find? (matchesCompletion student_id text_id) with
  | some existing =>
      if existing.correct_answers < correct then
        updateFirst (matchesCompletion student_id text_id)
          (fun c =>
            { c with
                passed := passed
                ai_feedback := feedback
                correct_answers := correct
                completed_at := now })
          completions
      else completions
  | none =>
      completions ++
        [{ id := new_id
           student_id := student_id
           text_id := text_id
           completed_at := default_completed_at
           passed := passed
           ai_feedback := feedback
           correct_answers := correct }]

/-- Modelled from the spec: the module-level last-question helper is imported
by routers/questions.py and routers/test.py but its definition is absent from
src. Per the spec it scans the transcript from most recent to oldest and
returns the content of the first record with `type = question`, or an empty
result if none exists. -/
def last_question (conversation : List Message) : Option String :=
  (conversation.reverse.find? (fun m => m.msgType == "question")).map
    (fun m => m.content)

/-!
The chunk parser of routers/addtext.py. Text is modelled as `List Char`.
Python's `\s` and `str.strip()` whitespace class is modelled by `pyIsSpace`
(the six ASCII whitespace characters). The scanning primitives
(`str.replace`, `re.findall` of a literal, `re.split`) walk the text left to
right, and on a match continue right after the matched segment; the `skip`
counter of each auxiliary function carries the remaining length of the
segment just matched.
-/

/-- The whitespace class used for the separator's `\s*` and for `strip()`. -/
def pyIsSpace (c : Char) : Bool :=
  c == ' ' || c == '\t' || c == '\n' || c == '\r' || c == '\x0b' || c == '\x0c'

/-- The literal `<chunk>`. -/
def openTag : List Char := ['<', 'c', 'h', 'u', 'n', 'k', '>']

/-- The literal `</chunk>`. -/
def closeTag : List Char := ['<', '/', 'c', 'h', 'u', 'n', 'k', '>']

/-- The literal `chunk>` of the first malformed-tag check. -/
def chunkFrag : List Char := ['c', 'h', 'u', 'n', 'k', '>']

/-- The literal `</chunk` of the second malformed-tag check. -/
def closeFrag : List Char := ['<', '/', 'c', 'h', 'u', 'n', 'k']

/-- Python's substring test `pat in s`. -/
def containsSub (pat : List Char) : List Char → Bool
  | [] => pat.isEmpty
  | c :: rest => pat.isPrefixOf (c :: rest) || containsSub pat rest

/-- Left-to-right non-overlapping occurrence count (`len(re.findall(pat, s))`
for a literal `pat`): on a match, the next `pat.length - 1` characters are
part of the match and are skipped. -/
def countOccurAux (pat : List Char) : Nat → List Char → Nat
  | _, [] => 0
  | j + 1, _ :: rest => countOccurAux pat j rest
  | 0, c :: rest =>
      if pat.isPrefixOf (c :: rest) then
        1 + countOccurAux pat (pat.length - 1) rest
      else countOccurAux pat 0 rest

/-- Number of non-overlapping occurrences of `pat` in `s`. -/
def countOccur (pat s : List Char) : Nat := countOccurAux pat 0 s

/-- Left-to-right scan of `s.replace(pat, "")`: matched segments are dropped
from the output and scanning resumes after them. -/
def removeAllAux (pat : List Char) : Nat → List Char → List Char
  | _, [] => []
  | j + 1, _ :: rest => removeAllAux pat j rest
  | 0, c :: rest =>
      if pat.isPrefixOf (c :: rest) then removeAllAux pat (pat.length - 1) rest
      else c :: removeAllAux pat 0 rest

/-- Python's `s.replace(pat, "")`. -/
def removeAll (pat s : List Char) : List Char := removeAllAux pat 0 s

/-- The remainder of `s` after the first occurrence of `pat`, if any. -/
def afterFirst (pat : List Char) : List Char → Option (List Char)
  | [] => none
  | c :: rest =>
      if pat.isPrefixOf (c :: rest) then some ((c :: rest).drop pat.length)
      else afterFirst pat rest

/-- Nonemptiness of `re.findall(r"<chunk>.*?</chunk>", text, re.DOTALL)`:
a match exists exactly when some `</chunk>` occurs after the first
`<chunk>`. -/
def hasChunkPair (text : List Char) : Bool :=
  match afterFirst openTag text with
  | some rest => containsSub closeTag rest
  | none => false

/-- validate_chunks of routers/addtext.py, as the predicate `no check
raises`: the two malformed-tag checks, the zero-tag check, the balanced-count
check, and the properly-nested-pair check. -/
def validate_chunks (text : List Char) : Bool :=
  !(containsSub chunkFrag text && !(containsSub openTag text)) &&
    (!(containsSub closeFrag text && !(containsSub closeTag text)) &&
      (!((countOccur openTag text == 0) && (countOccur closeTag text == 0)) &&
        ((countOccur openTag text == countOccur closeTag text) &&
          hasChunkPair text)))

/-- Attempt to match the separator regex `</chunk>\s*<chunk>` at the head of
`s`; on success return the total number of characters the match consumed
(the `\s*` is maximal-munch, which is exact here because `<chunk>` starts
with a non-whitespace character). -/
def matchSepLen (s : List Char) : Option Nat :=
  if closeTag.isPrefixOf s then
    let afterWs := (s.drop closeTag.length).dropWhile pyIsSpace
    if openTag.isPrefixOf afterWs then
      some (s.length - afterWs.length + openTag.length)
    else none
  else none

/-- The scan of `re.split(r"</chunk>\s*<chunk>", content)`: `acc` holds the
reversed characters of the piece being built, `skip` the remaining length of
a separator being consumed. -/
def splitSepAux : Nat → List Char → List Char → List (List Char)
  | _, acc, [] => [acc.reverse]
  | j + 1, acc, _ :: rest => splitSepAux j acc rest
  | 0, acc, c :: rest =>
      match matchSepLen (c :: rest) with
      | some n => acc.reverse :: splitSepAux (n - 1) [] rest
      | none => splitSepAux 0 (c :: acc) rest

/-- Python's `re.split(r"</chunk>\s*<chunk>", content)`. -/
def splitSep (content : List Char) : List (List Char) :=
  splitSepAux 0 [] content

/-- Python's `s.strip()`. -/
def stripChars (s : List Char) : List Char :=
  ((s.dropWhile pyIsSpace).reverse.dropWhile pyIsSpace).reverse

/-- The assignment `chunks[0] = f(chunks[0])`. -/
def modifyHead (f : List Char → List Char) :
    List (List Char) → List (List Char)
  | [] => []
  | c :: rest => f c :: rest

/-- The assignment `chunks[-1] = f(chunks[-1])`. -/
def modifyLast (f : List Char → List Char) :
    List (List Char) → List (List Char)
  | [] => []
  | [c] => [f c]
  | c :: rest => c :: modifyLast f rest

/-- split_into_chunks of routers/addtext.py: validate (an HTTPException from
any failed check is `Except.error ()`), split on the separator regex, strip
the opening tag from the first piece and the closing tag from the last, and
strip whitespace from every piece. -/
def split_into_chunks (content : List Char) :
    Except Unit (List (List Char)) :=
  if validate_chunks content then
    .ok ((modifyLast (removeAll closeTag)
        (modifyHead (removeAll openTag) (splitSep content))).map stripChars)
  else .error ()

/-- Whitespace-only text. -/
def wsOnly (w : List Char) : Bool := w.all pyIsSpace

/-- Inner content admissible inside one well-formed chunk block: it contains
neither tag literal as a substring. -/
def goodPart (p : List Char) : Bool :=
  !(containsSub openTag p) && !(containsSub closeTag p)

/-- The text after the opening tag of the first of a sequence of chunk
blocks: first inner part, then for every further block the preceding
whitespace separator, an opening tag and recursively the rest. -/
def mkBody : List Char → List (List Char × List Char) → List Char
  | p, [] => p ++ closeTag
  | p, (w, q) :: rest => p ++ closeTag ++ w ++ openTag ++ mkBody q rest

/-- A document of `1 + rest.length` well-formed chunk blocks with inner
parts `p, rest.map snd`, consecutive blocks separated by the whitespace runs
`rest.map fst`. -/
def mkContent (p : List Char) (rest : List (List Char × List Char)) :
    List Char :=
  openTag ++ mkBody p rest

/-- The pieces `re.split` produces from `mkBody`: every inner part in order,
with the trailing close tag still attached to the last piece. -/
def middlePieces : List Char → List (List Char × List Char) → List (List Char)
  | q, [] => [q ++ closeTag]
  | q, (_, q2) :: rest => q :: middlePieces q2 rest

/-- The inner parts in order. -/
def innerParts : List Char → List (List Char × List Char) → List (List Char)
  | q, [] => [q]
  | q, (_, q2) :: rest => q :: innerParts q2 rest

/-- No position of `t` starts a separator match. -/
def noSep : List Char → Bool
  | [] => true
  | c :: rest => (matchSepLen (c :: rest)).isNone && noSep rest

/-! Helper lemmas about `updateFirst`, `List.find?` and `countActive`. -/

theorem find?_updateFirst_eq {α : Type} (p : α → Bool) (f : α → α)
    (l : List α) (a : α) (h : l.find? p = some a) (hf : p (f a) = true) :
    (updateFirst p f l).find? p = some (f a) := by
  induction l with
  | nil => simp at h
  | cons c rest ih =>
    by_cases hc : p c = true
    · rw [List.find?_cons_of_pos _ hc] at h
      injection h with h
      subst h
      simp [updateFirst, hc, List.find?_cons_of_pos _ hf]
    · rw [List.find?_cons_of_neg _ (by simpa using hc)] at h
      simp [updateFirst, hc, List.find?_cons_of_neg _ (by simpa using hc),
        ih h]

theorem length_updateFirst {α : Type} (p : α → Bool) (f : α → α)
    (l : List α) : (updateFirst p f l).length = l.length := by
  induction l with
  | nil => rfl
  | cons c rest ih =>
    by_cases hc : p c = true <;> simp [updateFirst, hc, ih]

theorem updatedSession_matches (session : ReadingSession) (now : Nat)
    (m : Message) (q : Option String) (s u : Nat)
    (h : matchesSession s u session = true) :
    matchesSession s u (updatedSession session now m q) = true := by
  simpa [matchesSession, updatedSession] using h

theorem update_conversation_found (db : DB) (now s u : Nat) (m : Message)
    (q : Option String) (row : ReadingSession)
    (hfind : findSession db.rows s u = some row) :
    update_conversation db now s u m q =
      .ok ({ db with
              rows := updateFirst (matchesSession s u)
                (fun _ => updatedSession row now m q) db.rows },
            updatedSession row now m q) := by
  simp [update_conversation, hfind]

theorem findSession_after_update (rows : List ReadingSession)
    (now s u : Nat) (m : Message) (q : Option String) (row : ReadingSession)
    (hfind : findSession rows s u = some row) :
    findSession
      (updateFirst (matchesSession s u)
        (fun _ => updatedSession row now m q) rows) s u =
      some (updatedSession row now m q) := by
  have hm : matchesSession s u row = true := List.find?_some hfind
  exact find?_updateFirst_eq _ _ _ _ hfind
    (updatedSession_matches row now m q s u hm)

/-- C2: appending a message to a session preserves the existing transcript
order and mutates no prior record. For any session resolvable for (s, u)
whose decoded transcript is L, three sequential appends of records typed
question, answer, feedback all succeed, and fetching the conversation history
afterwards returns exactly L ++ [m1, m2, m3]; in particular, starting from an
empty transcript it returns exactly those three records in insertion order. -/
theorem c2_appends_preserve_order (db : DB) (n1 n2 n3 s u : Nat)
    (m1 m2 m3 : Message) (row : ReadingSession)
    (hfind : findSession db.rows s u = some row)
    (h1 : m1.msgType = "question") (h2 : m2.msgType = "answer")
    (h3 : m3.msgType = "feedback") :
    ∃ db1 r1 db2 r2 db3 r3,
      update_conversation db n1 s u m1 none = .ok (db1, r1) ∧
      update_conversation db1 n2 s u m2 none = .ok (db2, r2) ∧
      update_conversation db2 n3 s u m3 none = .ok (db3, r3) ∧
      get_conversation_history db3 s u =
        .ok ((row.conversation_context.getD []) ++ [m1, m2, m3]) := by
  have e1 := update_conversation_found db n1 s u m1 none row hfind
  have hf1 := findSession_after_update db.rows n1 s u m1 none row hfind
  have e2 := update_conversation_found
    ⟨updateFirst (matchesSession s u)
        (fun _ => updatedSession row n1 m1 none) db.rows, db.nextId⟩
    n2 s u m2 none (updatedSession row n1 m1 none) hf1
  have hf2 := findSession_after_update
    (updateFirst (matchesSession s u)
      (fun _ => updatedSession row n1 m1 none) db.rows)
    n2 s u m2 none (updatedSession row n1 m1 none) hf1
  have e3 := update_conversation_found
    ⟨updateFirst (matchesSession s u)
        (fun _ => updatedSession (updatedSession row n1 m1 none) n2 m2 none)
        (updateFirst (matchesSession s u)
          (fun _ => updatedSession row n1 m1 none) db.rows), db.nextId⟩
    n3 s u m3 none
    (updatedSession (updatedSession row n1 m1 none) n2 m2 none) hf2
  have hf3 := findSession_after_update
    (updateFirst (matchesSession s u)
      (fun _ => updatedSession (updatedSession row n1 m1 none) n2 m2 none)
      (updateFirst (matchesSession s u)
        (fun _ => updatedSession row n1 m1 none) db.rows))
    n3 s u m3 none
    (updatedSession (updatedSession row n1 m1 none) n2 m2 none) hf2
  refine ⟨_, _, _, _, _, _, e1, e2, e3, ?_⟩
  simp only [get_conversation_history]
  rw [hf3]
  simp [updatedSession]

/-- Witness for C2 at a concrete database with one session holding an empty
transcript: the three appends yield exactly the three records in order. -/
theorem c2_appends_preserve_order_witness :
    findSession
        [({ id := 1, user_id := 2, text_id := 3, chunk_id := 4,
            current_question := "cq", conversation_context := some [],
            created_at := 0, expires_at := 100, is_completed := false }
          : ReadingSession)] 1 2 =
      some
        { id := 1, user_id := 2, text_id := 3, chunk_id := 4,
          current_question := "cq", conversation_context := some [],
          created_at := 0, expires_at := 100, is_completed := false } ∧
    ∃ db1 r1 db2 r2 db3 r3,
      update_conversation
          ⟨[{ id := 1, user_id := 2, text_id := 3, chunk_id := 4,
              current_question := "cq", conversation_context := some [],
              created_at := 0, expires_at := 100, is_completed := false }], 5⟩
          10 1 2 ⟨"assistant", "Q1", "question"⟩ none = .ok (db1, r1) ∧
      update_conversation db1 11 1 2 ⟨"user", "A1", "answer"⟩ none =
        .ok (db2, r2) ∧
      update_conversation db2 12 1 2 ⟨"assistant", "F1", "feedback"⟩ none =
        .ok (db3, r3) ∧
      get_conversation_history db3 1 2 =
        .ok ((Option.getD (some ([] : List Message)) []) ++
          [⟨"assistant", "Q1", "question"⟩, ⟨"user", "A1", "answer"⟩,
            ⟨"assistant", "F1", "feedback"⟩]) :=
  ⟨by decide,
    c2_appends_preserve_order
      ⟨[{ id := 1, user_id := 2, text_id := 3, chunk_id := 4,
          current_question := "cq", conversation_context := some [],
          created_at := 0, expires_at := 100, is_completed := false }], 5⟩
      10 11 12 1 2 ⟨"assistant", "Q1", "question"⟩ ⟨"user", "A1", "answer"⟩
      ⟨"assistant", "F1", "feedback"⟩
      { id := 1, user_id := 2, text_id := 3, chunk_id := 4,
        current_question := "cq", conversation_context := some [],
        created_at := 0, expires_at := 100, is_completed := false }
      (by decide) rfl rfl rfl⟩

/-- C3: session expiry is a sliding window. Whenever the session resolves, a
successful `update_conversation` sets `expires_at` to the append time plus
SESSION_EXPIRY (7 days), independent of `created_at`, and the stored row is
the updated one. -/
theorem c3_sliding_expiry (db : DB) (now s u : Nat) (m : Message)
    (q : Option String) (row : ReadingSession)
    (hfind : findSession db.rows s u = some row) :
    SESSION_EXPIRY = 7 * 24 * 60 * 60 ∧
    ∃ db' r', update_conversation db now s u m q = .ok (db', r') ∧
      r'.expires_at = now + SESSION_EXPIRY ∧
      findSession db'.rows s u = some r' := by
  refine ⟨rfl, _, _, update_conversation_found db now s u m q row hfind,
    by simp [updatedSession], ?_⟩
  exact findSession_after_update db.rows now s u m q row hfind

/-- Witness for C3: a session created at time 0 (expiring at 604800) and
appended to 6 days later (518400) gets expiry 518400 + 604800, which differs
from creation time + 604800. -/
theorem c3_sliding_expiry_witness :
    findSession
        [({ id := 0, user_id := 1, text_id := 2, chunk_id := 3,
            current_question := "q", conversation_context := some [],
            created_at := 0, expires_at := 604800, is_completed := false }
          : ReadingSession)] 0 1 =
      some
        { id := 0, user_id := 1, text_id := 2, chunk_id := 3,
          current_question := "q", conversation_context := some [],
          created_at := 0, expires_at := 604800, is_completed := false } ∧
    518400 + SESSION_EXPIRY ≠ 0 + SESSION_EXPIRY ∧
    (SESSION_EXPIRY = 7 * 24 * 60 * 60 ∧
      ∃ db' r',
        update_conversation
            ⟨[{ id := 0, user_id := 1, text_id := 2, chunk_id := 3,
                current_question := "q", conversation_context := some [],
                created_at := 0, expires_at := 604800,
                is_completed := false }], 1⟩
            518400 0 1 ⟨"user", "hello", "answer"⟩ none = .ok (db', r') ∧
        r'.expires_at = 518400 + SESSION_EXPIRY ∧
        findSession db'.rows 0 1 = some r') :=
  ⟨by decide, by decide,
    c3_sliding_expiry
      ⟨[{ id := 0, user_id := 1, text_id := 2, chunk_id := 3,
          current_question := "q", conversation_context := some [],
          created_at := 0, expires_at := 604800, is_completed := false }], 1⟩
      518400 0 1 ⟨"user", "hello", "answer"⟩ none
      { id := 0, user_id := 1, text_id := 2, chunk_id := 3,
        current_question := "q", conversation_context := some [],
        created_at := 0, expires_at := 604800, is_completed := false }
      (by decide)⟩

/-- C6: `update_conversation` and `get_conversation_history` fail with
NotFound exactly when the (session id, user id) lookup resolves no row, and
succeed whenever it resolves one. -/
theorem c6_notfound_exactly_when_unresolved (db : DB) (now s u : Nat)
    (m : Message) (q : Option String) :
    (findSession db.rows s u = none →
      update_conversation db now s u m q = .error .notFound ∧
      get_conversation_history db s u = .error .notFound) ∧
    (∀ row, findSession db.rows s u = some row →
      (∃ out, update_conversation db now s u m q = .ok out) ∧
      (∃ h, get_conversation_history db s u = .ok h)) := by
  constructor
  · intro hnone
    exact ⟨by simp [update_conversation, hnone],
      by simp [get_conversation_history, hnone]⟩
  · intro row hrow
    refine ⟨⟨_, update_conversation_found db now s u m q row hrow⟩,
      ⟨row.conversation_context.getD [], ?_⟩⟩
    simp [get_conversation_history, hrow]

/-- Witness for C6 at a concrete database containing the single row
(id 1, user 2): looking up session 1 for user 2 resolves and both operations
succeed; looking up session 7 for user 2 resolves nothing and both
operations fail with NotFound. -/
theorem c6_notfound_exactly_when_unresolved_witness :
    ((∃ out,
        update_conversation
            ⟨[{ id := 1, user_id := 2, text_id := 3, chunk_id := 4,
                current_question := "cq", conversation_context := some [],
                created_at := 0, expires_at := 100,
                is_completed := false }], 5⟩
            9 1 2 ⟨"user", "x", "answer"⟩ none = .ok out) ∧
      (∃ h,
        get_conversation_history
            ⟨[{ id := 1, user_id := 2, text_id := 3, chunk_id := 4,
                current_question := "cq", conversation_context := some [],
                created_at := 0, expires_at := 100,
                is_completed := false }], 5⟩
            1 2 = .ok h)) ∧
    (update_conversation
        ⟨[{ id := 1, user_id := 2, text_id := 3, chunk_id := 4,
            current_question := "cq", conversation_context := some [],
            created_at := 0, expires_at := 100,
            is_completed := false }], 5⟩
        9 7 2 ⟨"user", "x", "answer"⟩ none = .error .notFound ∧
      get_conversation_history
          ⟨[{ id := 1, user_id := 2, text_id := 3, chunk_id := 4,
              current_question := "cq", conversation_context := some [],
              created_at := 0, expires_at := 100,
              is_completed := false }], 5⟩
          7 2 = .error .notFound) :=
  ⟨(c6_notfound_exactly_when_unresolved
        ⟨[{ id := 1, user_id := 2, text_id := 3, chunk_id := 4,
            current_question := "cq", conversation_context := some [],
            created_at := 0, expires_at := 100,
            is_completed := false }], 5⟩
        9 1 2 ⟨"user", "x", "answer"⟩ none).2
      { id := 1, user_id := 2, text_id := 3, chunk_id := 4,
        current_question := "cq", conversation_context := some [],
        created_at := 0, expires_at := 100, is_completed := false }
      (by decide),
    (c6_notfound_exactly_when_unresolved
        ⟨[{ id := 1, user_id := 2, text_id := 3, chunk_id := 4,
            current_question := "cq", conversation_context := some [],
            created_at := 0, expires_at := 100,
            is_completed := false }], 5⟩
        9 7 2 ⟨"user", "x", "answer"⟩ none).1 (by decide)⟩

/-- C7: `complete_session` marks the resolved session completed (leaving its
other fields and the table size unchanged), and is a silent no-op producing
no state change whenever no session with that id exists for that user --
including when the id exists under a different user, in which case the
lookup also resolves nothing. -/
theorem c7_complete_silent_noop (db : DB) (s u : Nat) :
    (findSession db.rows s u = none → complete_session db s u = db) ∧
    (∀ row, findSession db.rows s u = some row →
      findSession (complete_session db s u).rows s u =
        some { row with is_completed := true } ∧
      (complete_session db s u).rows.length = db.rows.length) := by
  constructor
  · intro hnone
    simp [complete_session, hnone]
  · intro row hrow
    have hm : matchesSession s u row = true := List.find?_some hrow
    have hm2 : matchesSession s u { row with is_completed := true } = true :=
      by simpa [matchesSession] using hm
    constructor
    · simp only [complete_session, hrow]
      exact find?_updateFirst_eq _ _ _ _ hrow hm2
    · simp [complete_session, hrow, length_updateFirst]

/-- Witness for C7: completing session 1 as its owner (user 5) marks it
completed; completing session 1 as user 6 -- the session exists but belongs
to a different user -- changes nothing. -/
theorem c7_complete_silent_noop_witness :
    (findSession
        (DB.rows
          ⟨[{ id := 1, user_id := 5, text_id := 3, chunk_id := 4,
              current_question := "cq", conversation_context := some [],
              created_at := 0, expires_at := 100,
              is_completed := false }], 2⟩) 1 6 = none ∧
      complete_session
          ⟨[{ id := 1, user_id := 5, text_id := 3, chunk_id := 4,
              current_question := "cq", conversation_context := some [],
              created_at := 0, expires_at := 100,
              is_completed := false }], 2⟩ 1 6 =
        ⟨[{ id := 1, user_id := 5, text_id := 3, chunk_id := 4,
            current_question := "cq", conversation_context := some [],
            created_at := 0, expires_at := 100,
            is_completed := false }], 2⟩) ∧
    findSession
        (complete_session
          ⟨[{ id := 1, user_id := 5, text_id := 3, chunk_id := 4,
              current_question := "cq", conversation_context := some [],
              created_at := 0, expires_at := 100,
              is_completed := false }], 2⟩ 1 5).rows 1 5 =
      some
        { id := 1, user_id := 5, text_id := 3, chunk_id := 4,
          current_question := "cq", conversation_context := some [],
          created_at := 0, expires_at := 100, is_completed := true } :=
  ⟨⟨by decide,
      (c7_complete_silent_noop
          ⟨[{ id := 1, user_id := 5, text_id := 3, chunk_id := 4,
              current_question := "cq", conversation_context := some [],
              created_at := 0, expires_at := 100,
              is_completed := false }], 2⟩ 1 6).1 (by decide)⟩,
    ((c7_complete_silent_noop
          ⟨[{ id := 1, user_id := 5, text_id := 3, chunk_id := 4,
              current_question := "cq", conversation_context := some [],
              created_at := 0, expires_at := 100,
              is_completed := false }], 2⟩ 1 5).2
        { id := 1, user_id := 5, text_id := 3, chunk_id := 4,
          current_question := "cq", conversation_context := some [],
          created_at := 0, expires_at := 100, is_completed := false }
        (by decide)).1⟩

/-- C8: for a resolvable session whose stored `conversation_context` is not
valid JSON, the history is the empty list rather than a failure, and an
append produces a transcript containing exactly the newly appended record. -/
theorem c8_malformed_transcript_recovers (db : DB) (now s u : Nat)
    (m : Message) (row : ReadingSession)
    (hfind : findSession db.rows s u = some row)
    (hbad : row.conversation_context = none) :
    get_conversation_history db s u = .ok [] ∧
    ∃ db' r', update_conversation db now s u m none = .ok (db', r') ∧
      r'.conversation_context = some [m] ∧
      findSession db'.rows s u = some r' := by
  refine ⟨by simp [get_conversation_history, hfind, hbad], _, _,
    update_conversation_found db now s u m none row hfind,
    by simp [updatedSession, hbad], ?_⟩
  exact findSession_after_update db.rows now s u m none row hfind

/-- Witness for C8 at a session whose stored transcript is malformed. -/
theorem c8_malformed_transcript_recovers_witness :
    findSession
        [({ id := 1, user_id := 2, text_id := 3, chunk_id := 4,
            current_question := "cq", conversation_context := none,
            created_at := 0, expires_at := 100, is_completed := false }
          : ReadingSession)] 1 2 =
      some
        { id := 1, user_id := 2, text_id := 3, chunk_id := 4,
          current_question := "cq", conversation_context := none,
          created_at := 0, expires_at := 100, is_completed := false } ∧
    (get_conversation_history
        ⟨[{ id := 1, user_id := 2, text_id := 3, chunk_id := 4,
            current_question := "cq", conversation_context := none,
            created_at := 0, expires_at := 100,
            is_completed := false }], 5⟩ 1 2 = .ok [] ∧
      ∃ db' r',
        update_conversation
            ⟨[{ id := 1, user_id := 2, text_id := 3, chunk_id := 4,
                current_question := "cq", conversation_context := none,
                created_at := 0, expires_at := 100,
                is_completed := false }], 5⟩
            9 1 2 ⟨"user", "x", "answer"⟩ none = .ok (db', r') ∧
        r'.conversation_context = some [⟨"user", "x", "answer"⟩] ∧
        findSession db'.rows 1 2 = some r') :=
  ⟨by decide,
    c8_malformed_transcript_recovers
      ⟨[{ id := 1, user_id := 2, text_id := 3, chunk_id := 4,
          current_question := "cq", conversation_context := none,
          created_at := 0, expires_at := 100, is_completed := false }], 5⟩
      9 1 2 ⟨"user", "x", "answer"⟩
      { id := 1, user_id := 2, text_id := 3, chunk_id := 4,
        current_question := "cq", conversation_context := none,
        created_at := 0, expires_at := 100, is_completed := false }
      (by decide) rfl⟩

/-- C9: completion does not make a session immutable: the lookup of
`update_conversation` imposes no `is_completed` guard, so for a session row
matching (s, u) with `is_completed = true` the append still succeeds,
appends the record, and resets `expires_at`. -/
theorem c9_update_ignores_completed (db : DB) (now s u : Nat) (m : Message)
    (q : Option String) (row : ReadingSession)
    (hfind : findSession db.rows s u = some row)
    (hdone : row.is_completed = true) :
    ∃ db' r', update_conversation db now s u m q = .ok (db', r') ∧
      r'.conversation_context =
        some ((row.conversation_context.getD []) ++ [m]) ∧
      r'.expires_at = now + SESSION_EXPIRY ∧
      r'.is_completed = true ∧
      findSession db'.rows s u = some r' := by
  refine ⟨_, _, update_conversation_found db now s u m q row hfind,
    by simp [updatedSession], by simp [updatedSession],
    by simp [updatedSession, hdone], ?_⟩
  exact findSession_after_update db.rows now s u m q row hfind

/-- Witness for C9 at a completed session. -/
theorem c9_update_ignores_completed_witness :
    findSession
        [({ id := 1, user_id := 2, text_id := 3, chunk_id := 4,
            current_question := "cq",
            conversation_context := some [⟨"assistant", "Q", "question"⟩],
            created_at := 0, expires_at := 100, is_completed := true }
          : ReadingSession)] 1 2 =
      some
        { id := 1, user_id := 2, text_id := 3, chunk_id := 4,
          current_question := "cq",
          conversation_context := some [⟨"assistant", "Q", "question"⟩],
          created_at := 0, expires_at := 100, is_completed := true } ∧
    ∃ db' r',
      update_conversation
          ⟨[{ id := 1, user_id := 2, text_id := 3, chunk_id := 4,
              current_question := "cq",
              conversation_context := some [⟨"assistant", "Q", "question"⟩],
              created_at := 0, expires_at := 100,
              is_completed := true }], 5⟩
          9 1 2 ⟨"user", "x", "answer"⟩ none = .ok (db', r') ∧
      r'.conversation_context =
        some ((Option.getD (some [(⟨"assistant", "Q", "question"⟩ : Message)])
            []) ++ [⟨"user", "x", "answer"⟩]) ∧
      r'.expires_at = 9 + SESSION_EXPIRY ∧
      r'.is_completed = true ∧
      findSession db'.rows 1 2 = some r' :=
  ⟨by decide,
    c9_update_ignores_completed
      ⟨[{ id := 1, user_id := 2, text_id := 3, chunk_id := 4,
          current_question := "cq",
          conversation_context := some [⟨"assistant", "Q", "question"⟩],
          created_at := 0, expires_at := 100, is_completed := true }], 5⟩
      9 1 2 ⟨"user", "x", "answer"⟩ none
      { id := 1, user_id := 2, text_id := 3, chunk_id := 4,
        current_question := "cq",
        conversation_context := some [⟨"assistant", "Q", "question"⟩],
        created_at := 0, expires_at := 100, is_completed := true }
      (by decide) rfl⟩

theorem countActive_updateFirst_chunk (rows : List ReadingSession)
    (u t c : Nat) :
    countActive
      (updateFirst (matchesActive u t)
        (fun r => { r with chunk_id := c }) rows) u t =
      countActive rows u t := by
  induction rows with
  | nil => rfl
  | cons r rest ih =>
    by_cases hr : matchesActive u t r = true
    · have hr2 : matchesActive u t { r with chunk_id := c } = true := hr
      simp [updateFirst, countActive, hr, hr2, List.filter_cons]
    · simp only [updateFirst, hr, if_false, Bool.false_eq_true]
      simp only [countActive, List.filter_cons, hr, Bool.false_eq_true,
        if_false] at ih ⊢
      exact ih

theorem countActive_filter_le (rows : List ReadingSession)
    (g : ReadingSession → Bool) (u t : Nat) :
    countActive (rows.filter g) u t ≤ countActive rows u t := by
  have hs : List.Sublist ((rows.filter g).filter (matchesActive u t))
      (rows.filter (matchesActive u t)) :=
    List.Sublist.filter _ (List.filter_sublist rows)
  exact hs.length_le

theorem countActive_pos_of_find? (rows : List ReadingSession) (u t : Nat)
    (ex : ReadingSession)
    (h : rows.find? (matchesActive u t) = some ex) :
    0 < countActive rows u t := by
  have hmem : ex ∈ rows := List.mem_of_find?_eq_some h
  have hpred : matchesActive u t ex = true := List.find?_some h
  have : ex ∈ rows.filter (matchesActive u t) :=
    List.mem_filter.mpr ⟨hmem, hpred⟩
  exact List.length_pos.mpr (List.ne_nil_of_mem this)

theorem countActive_zero_of_find?_none (rows : List ReadingSession)
    (u t : Nat) (h : rows.find? (matchesActive u t) = none) :
    countActive rows u t = 0 := by
  have hall := List.find?_eq_none.mp h
  unfold countActive
  rw [List.length_eq_zero, List.filter_eq_nil_iff]
  exact hall

theorem countActive_append_new (rows : List ReadingSession)
    (r : ReadingSession) (u t : Nat) (hr : matchesActive u t r = true) :
    countActive (rows ++ [r]) u t = countActive rows u t + 1 := by
  simp [countActive, List.filter_append, List.filter_cons, hr]

/-- One `create_or_get_session` call re-establishes the invariant: starting
from at most one active row for the pair, exactly one active row exists for
the pair afterwards. -/
theorem create_or_get_session_countActive (db : DB) (now u t c : Nat)
    (q : String) (h : countActive db.rows u t ≤ 1) :
    countActive (create_or_get_session db now u t c q).1.rows u t = 1 := by
  unfold create_or_get_session
  have hle : countActive (cleanup_expired_sessions db now).rows u t ≤ 1 :=
    le_trans (countActive_filter_le db.rows _ u t) h
  cases hfind : (cleanup_expired_sessions db now).rows.find?
      (matchesActive u t) with
  | some ex =>
    simp only [hfind]
    rw [countActive_updateFirst_chunk]
    have hpos := countActive_pos_of_find? _ u t ex hfind
    omega
  | none =>
    simp only [hfind]
    rw [countActive_append_new _ _ u t (by simp [matchesActive])]
    rw [countActive_zero_of_find?_none _ u t hfind]

/-- C1: under serialized execution, after any nonempty sequence of
`create_or_get_session` calls for a fixed (user, text) pair -- with no
intervening `complete_session` -- a database that started with at most one
active row for that pair holds exactly one row with `is_completed = false`
for it; in particular no call ever creates a second active session when one
already exists. -/
theorem c1_exactly_one_active_session (db : DB) (u t : Nat)
    (calls : List CallParams) (hne : calls ≠ [])
    (h : countActive db.rows u t ≤ 1) :
    countActive (applyCalls db u t calls).rows u t = 1 := by
  induction calls generalizing db with
  | nil => exact absurd rfl hne
  | cons c cs ih =>
    have hstep := create_or_get_session_countActive db c.now u t c.chunk_id
      c.initial_question h
    cases cs with
    | nil => exact hstep
    | cons c2 cs2 =>
      exact ih
        (create_or_get_session db c.now u t c.chunk_id
          c.initial_question).1 (List.cons_ne_nil c2 cs2) (le_of_eq hstep)

/-- Witness for C1: two calls for the pair (1, 2) on an initially empty
database leave exactly one active row for the pair. -/
theorem c1_exactly_one_active_session_witness :
    ([(⟨0, 3, "a"⟩ : CallParams), ⟨5, 4, "b"⟩] ≠ []) ∧
    countActive (DB.rows ⟨[], 0⟩) 1 2 ≤ 1 ∧
    countActive
        (applyCalls ⟨[], 0⟩ 1 2
          [(⟨0, 3, "a"⟩ : CallParams), ⟨5, 4, "b"⟩]).rows 1 2 = 1 :=
  ⟨by decide, by decide,
    c1_exactly_one_active_session ⟨[], 0⟩ 1 2
      [(⟨0, 3, "a"⟩ : CallParams), ⟨5, 4, "b"⟩] (by decide) (by decide)⟩

/-- C4: completion-record reconciliation follows best-attempt-wins with
strict improvement: with no prior record for (student, text) a new record is
inserted; with a prior record, an attempt whose correct count is equal or
lower leaves the table entirely unchanged, and a strictly greater count
overwrites exactly `passed`, `ai_feedback`, `correct_answers` and
`completed_at` of the stored record, keeping the table size. -/
theorem c4_best_attempt_wins (completions : List ReadingCompletion)
    (now student_id text_id correct : Nat) (feedback : String)
    (new_id default_completed_at : Nat) :
    (completions.find? (matchesCompletion student_id text_id) = none →
      reconcile_completion completions now student_id text_id correct
          feedback new_id default_completed_at =
        completions ++
          [{ id := new_id, student_id := student_id, text_id := text_id,
             completed_at := default_completed_at,
             passed := decide (4 ≤ correct), ai_feedback := feedback,
             correct_answers := correct }]) ∧
    (∀ ex, completions.find? (matchesCompletion student_id text_id) =
        some ex →
      correct ≤ ex.correct_answers →
      reconcile_completion completions now student_id text_id correct
          feedback new_id default_completed_at = completions) ∧
    (∀ ex, completions.find? (matchesCompletion student_id text_id) =
        some ex →
      ex.correct_answers < correct →
      (reconcile_completion completions now student_id text_id correct
            feedback new_id default_completed_at).find?
          (matchesCompletion student_id text_id) =
        some
          { ex with
              passed := decide (4 ≤ correct), ai_feedback := feedback,
              correct_answers := correct, completed_at := now } ∧
      (reconcile_completion completions now student_id text_id correct
          feedback new_id default_completed_at).length =
        completions.length) := by
  refine ⟨fun hnone => ?_, fun ex hsome hle => ?_, fun ex hsome hgt => ?_⟩
  · simp [reconcile_completion, hnone]
  · simp [reconcile_completion, hsome, Nat.not_lt.mpr hle]
  · have hm : matchesCompletion student_id text_id ex = true :=
      List.find?_some hsome
    have hm2 : matchesCompletion student_id text_id
        { ex with
            passed := decide (4 ≤ correct), ai_feedback := feedback,
            correct_answers := correct, completed_at := now } = true := hm
    constructor
    · simp only [reconcile_completion, hsome, hgt, if_true]
      exact find?_updateFirst_eq _ _ _ _ hsome hm2
    · simp [reconcile_completion, hsome, hgt, length_updateFirst]

/-- Witness for C4 with a stored record holding `correct_answers = 3`: an
attempt with 2 correct leaves the table unchanged, an attempt with 4 correct
overwrites the stored record in place, and with no record for the pair a new
record is inserted. -/
theorem c4_best_attempt_wins_witness :
    (reconcile_completion
        [({ id := 1, student_id := 10, text_id := 20, completed_at := 50,
            passed := false, ai_feedback := "old", correct_answers := 3 }
          : ReadingCompletion)] 99 10 20 2 "low" 7 8 =
      [{ id := 1, student_id := 10, text_id := 20, completed_at := 50,
         passed := false, ai_feedback := "old", correct_answers := 3 }]) ∧
    ((reconcile_completion
          [({ id := 1, student_id := 10, text_id := 20, completed_at := 50,
              passed := false, ai_feedback := "old", correct_answers := 3 }
            : ReadingCompletion)] 99 10 20 4 "high" 7 8).find?
        (matchesCompletion 10 20) =
      some
        { id := 1, student_id := 10, text_id := 20, completed_at := 99,
          passed := decide (4 ≤ 4), ai_feedback := "high",
          correct_answers := 4 }) ∧
    (reconcile_completion
        [({ id := 1, student_id := 10, text_id := 20, completed_at := 50,
            passed := false, ai_feedback := "old", correct_answers := 3 }
          : ReadingCompletion)] 99 11 20 5 "fresh" 7 8 =
      [{ id := 1, student_id := 10, text_id := 20, completed_at := 50,
         passed := false, ai_feedback := "old", correct_answers := 3 }] ++
        [{ id := 7, student_id := 11, text_id := 20, completed_at := 8,
           passed := decide (4 ≤ 5), ai_feedback := "fresh",
           correct_answers := 5 }]) :=
  ⟨(c4_best_attempt_wins
        [{ id := 1, student_id := 10, text_id := 20, completed_at := 50,
           passed := false, ai_feedback := "old", correct_answers := 3 }]
        99 10 20 2 "low" 7 8).2.1
      { id := 1, student_id := 10, text_id := 20, completed_at := 50,
        passed := false, ai_feedback := "old", correct_answers := 3 }
      (by decide) (by decide),
    ((c4_best_attempt_wins
          [{ id := 1, student_id := 10, text_id := 20, completed_at := 50,
             passed := false, ai_feedback := "old", correct_answers := 3 }]
          99 10 20 4 "high" 7 8).2.2
        { id := 1, student_id := 10, text_id := 20, completed_at := 50,
          passed := false, ai_feedback := "old", correct_answers := 3 }
        (by decide) (by decide)).1,
    (c4_best_attempt_wins
        [{ id := 1, student_id := 10, text_id := 20, completed_at := 50,
           passed := false, ai_feedback := "old", correct_answers := 3 }]
        99 11 20 5 "fresh" 7 8).1 (by decide)⟩

/-- C5: the last-question lookup scans the transcript from most recent to
oldest: appending a question record makes its content the result, appending
a non-question record leaves the result unchanged, and a transcript with no
question record yields an empty result. -/
theorem c5_last_question_newest_first (conv : List Message) (m : Message) :
    (m.msgType = "question" →
      last_question (conv ++ [m]) = some m.content) ∧
    (m.msgType ≠ "question" →
      last_question (conv ++ [m]) = last_question conv) ∧
    ((∀ x ∈ conv, x.msgType ≠ "question") → last_question conv = none) := by
  refine ⟨fun hq => ?_, fun hq => ?_, fun hnone => ?_⟩
  · simp [last_question, hq]
  · simp [last_question, hq]
  · have : conv.reverse.find? (fun x => x.msgType == "question") = none :=
      List.find?_eq_none.mpr
        (fun x hx => by
          simpa using hnone x (List.mem_reverse.mp hx))
    simp [last_question, this]

/-- Witness for C5 at the spec's example transcript
[chunk, question Q1, answer, feedback, question Q2]: the lookup returns Q2. -/
theorem c5_last_question_newest_first_witness :
    (Message.msgType ⟨"assistant", "Q2", "question"⟩ = "question") ∧
    last_question
        ([⟨"assistant", "c", "chunk"⟩, ⟨"assistant", "Q1", "question"⟩,
          ⟨"user", "a", "answer"⟩, ⟨"assistant", "f", "feedback"⟩] ++
          [⟨"assistant", "Q2", "question"⟩]) = some "Q2" :=
  ⟨rfl,
    (c5_last_question_newest_first
        [⟨"assistant", "c", "chunk"⟩, ⟨"assistant", "Q1", "question"⟩,
          ⟨"user", "a", "answer"⟩, ⟨"assistant", "f", "feedback"⟩]
        ⟨"assistant", "Q2", "question"⟩).1 rfl⟩

/-! Toolkit about `List.isPrefixOf` and `List.isSuffixOf` on `List Char`. -/

theorem isPrefixOf_iff_take (pat l : List Char) :
    pat.isPrefixOf l = true ↔ l.take pat.length = pat := by
  induction pat generalizing l with
  | nil => simp [List.isPrefixOf]
  | cons a as ih =>
    cases l with
    | nil => simp [List.isPrefixOf]
    | cons b bs =>
      simp only [List.isPrefixOf, Bool.and_eq_true, beq_iff_eq,
        List.length_cons, List.take_succ_cons, List.cons.injEq, ih bs]
      constructor
      · rintro ⟨h1, h2⟩
        exact ⟨h1.symm, h2⟩
      · rintro ⟨h1, h2⟩
        exact ⟨h1.symm, h2⟩

theorem length_le_of_isPrefixOf (pat l : List Char)
    (h : pat.isPrefixOf l = true) : pat.length ≤ l.length := by
  induction pat generalizing l with
  | nil => simp
  | cons a as ih =>
    cases l with
    | nil => simp [List.isPrefixOf] at h
    | cons b bs =>
      simp only [List.isPrefixOf, Bool.and_eq_true] at h
      simpa using ih bs h.2

theorem isPrefixOf_append_iff (pat l t : List Char)
    (h : pat.length ≤ l.length) :
    pat.isPrefixOf (l ++ t) = true ↔ pat.isPrefixOf l = true := by
  rw [isPrefixOf_iff_take, isPrefixOf_iff_take,
    List.take_append_of_le_length h]

theorem isPrefixOf_self_append (pat t : List Char) :
    pat.isPrefixOf (pat ++ t) = true := by
  rw [isPrefixOf_iff_take, List.take_left]

theorem isPrefixOf_rfl (l : List Char) : l.isPrefixOf l = true := by
  rw [isPrefixOf_iff_take, List.take_length]

theorem isPrefixOf_extend (pat l t : List Char)
    (h : pat.isPrefixOf l = true) : pat.isPrefixOf (l ++ t) = true := by
  rw [isPrefixOf_append_iff pat l t (length_le_of_isPrefixOf pat l h)]
  exact h

theorem take_isPrefixOf (l : List Char) (n : Nat) :
    (l.take n).isPrefixOf l = true := by
  induction l generalizing n with
  | nil => simp [List.isPrefixOf]
  | cons c cs ih =>
    cases n with
    | zero => simp [List.isPrefixOf]
    | succ m =>
      simp only [List.take_succ_cons, List.isPrefixOf, Bool.and_eq_true,
        beq_iff_eq]
      exact ⟨by trivial, ih m⟩

theorem isPrefixOf_split (pat l q : List Char)
    (h : pat.isPrefixOf (l ++ q) = true) (hlt : l.length < pat.length) :
    pat.take l.length = l ∧ (pat.drop l.length).isPrefixOf q = true := by
  have ht := (isPrefixOf_iff_take pat (l ++ q)).mp h
  rw [List.take_append_eq_append_take,
    List.take_of_length_le (le_of_lt hlt)] at ht
  constructor
  · conv_lhs => rw [← ht]
    exact List.take_left' rfl
  · have hd : pat.drop l.length = q.take (pat.length - l.length) := by
      conv_lhs => rw [← ht]
      exact List.drop_left l _
    rw [hd]
    exact take_isPrefixOf q _

theorem isSuffixOf_rfl (l : List Char) : l.isSuffixOf l = true := by
  simp only [List.isSuffixOf]
  exact isPrefixOf_rfl l.reverse

theorem isSuffixOf_cons (x l : List Char) (c : Char)
    (h : x.isSuffixOf l = true) : x.isSuffixOf (c :: l) = true := by
  simp only [List.isSuffixOf] at h ⊢
  rw [List.reverse_cons]
  exact isPrefixOf_extend _ _ _ h

/-- A match of `pat` cannot start strictly inside a region `l` that
immediately precedes `q`, when no proper nonempty tail of `pat` is a prefix
of `q`. -/
theorem isPrefixOf_append_false_A (pat l q : List Char) (hne : l ≠ [])
    (h1 : pat.isPrefixOf l = false)
    (h2 : ∀ k, k < pat.length → 0 < k →
      (pat.drop k).isPrefixOf q = false) :
    pat.isPrefixOf (l ++ q) = false := by
  cases hx : pat.isPrefixOf (l ++ q) with
  | false => rfl
  | true =>
    exfalso
    by_cases hl : pat.length ≤ l.length
    · rw [isPrefixOf_append_iff pat l q hl] at hx
      rw [hx] at h1
      exact Bool.noConfusion h1
    · have hlt : l.length < pat.length := Nat.lt_of_not_le hl
      have h0 : 0 < l.length := List.length_pos.mpr hne
      have hsp := (isPrefixOf_split pat l q hx hlt).2
      have hfalse := h2 l.length hlt h0
      rw [hsp] at hfalse
      exact Bool.noConfusion hfalse

/-- A match of `pat` cannot start strictly inside a region `l` that
immediately precedes anything, when no proper nonempty prefix of `pat`
equals `l`. -/
theorem isPrefixOf_append_false_B (pat l q : List Char) (hne : l ≠ [])
    (h1 : pat.isPrefixOf l = false)
    (h2 : ∀ k, k < pat.length → 0 < k → pat.take k ≠ l) :
    pat.isPrefixOf (l ++ q) = false := by
  cases hx : pat.isPrefixOf (l ++ q) with
  | false => rfl
  | true =>
    exfalso
    by_cases hl : pat.length ≤ l.length
    · rw [isPrefixOf_append_iff pat l q hl] at hx
      rw [hx] at h1
      exact Bool.noConfusion h1
    · have hlt : l.length < pat.length := Nat.lt_of_not_le hl
      have h0 : 0 < l.length := List.length_pos.mpr hne
      exact h2 l.length hlt h0 (isPrefixOf_split pat l q hx hlt).1

/-! Lemmas about `containsSub`. -/

theorem containsSub_self_append (pat t : List Char) (hne : pat ≠ []) :
    containsSub pat (pat ++ t) = true := by
  cases pat with
  | nil => exact absurd rfl hne
  | cons c cs =>
    have hpre := isPrefixOf_self_append (c :: cs) t
    show ((c :: cs).isPrefixOf ((c :: cs) ++ t) ||
      containsSub (c :: cs) (cs ++ t)) = true
    rw [hpre]
    simp

theorem containsSub_append_right (pat a t : List Char)
    (h : containsSub pat t = true) : containsSub pat (a ++ t) = true := by
  induction a with
  | nil => simpa
  | cons c rest ih =>
    simp only [List.cons_append, containsSub, Bool.or_eq_true]
    exact Or.inr ih

theorem containsSub_append_false_A (pat l q : List Char)
    (hp : containsSub pat l = false) (hq : containsSub pat q = false)
    (h2 : ∀ k, k < pat.length → 0 < k →
      (pat.drop k).isPrefixOf q = false) :
    containsSub pat (l ++ q) = false := by
  induction l with
  | nil => simpa
  | cons c rest ih =>
    simp only [containsSub, Bool.or_eq_false_iff] at hp
    simp only [List.cons_append, containsSub, Bool.or_eq_false_iff]
    refine ⟨?_, ih hp.2⟩
    exact isPrefixOf_append_false_A pat (c :: rest) q (by simp) hp.1 h2

theorem containsSub_append_false_B (pat l q : List Char)
    (hp : containsSub pat l = false) (hq : containsSub pat q = false)
    (h2 : ∀ k, k < pat.length → 0 < k →
      (pat.take k).isSuffixOf l = false) :
    containsSub pat (l ++ q) = false := by
  induction l with
  | nil => simpa
  | cons c rest ih =>
    simp only [containsSub, Bool.or_eq_false_iff] at hp
    simp only [List.cons_append, containsSub, Bool.or_eq_false_iff]
    refine ⟨?_, ih hp.2 (fun k hk h0 => ?_)⟩
    · refine isPrefixOf_append_false_B pat (c :: rest) q (by simp) hp.1
        (fun k hk h0 heq => ?_)
      have hs := h2 k hk h0
      rw [heq, isSuffixOf_rfl] at hs
      exact Bool.noConfusion hs
    · cases hx : (pat.take k).isSuffixOf rest with
      | false => rfl
      | true =>
        have hext := isSuffixOf_cons _ rest c hx
        rw [h2 k hk h0] at hext
        exact Bool.noConfusion hext

/-! Concrete facts about the two tag literals, by computation. -/

theorem openTag_ne_nil : openTag ≠ [] := by decide

theorem closeTag_ne_nil : closeTag ≠ [] := by decide

theorem drop_close_close : ∀ k, k < closeTag.length → 0 < k →
    (closeTag.drop k).isPrefixOf closeTag = false := by decide

theorem drop_open_open : ∀ k, k < openTag.length → 0 < k →
    (openTag.drop k).isPrefixOf openTag = false := by decide

theorem drop_open_close : ∀ k, k < openTag.length → 0 < k →
    (openTag.drop k).isPrefixOf closeTag = false := by decide

theorem drop_close_open : ∀ k, k < closeTag.length → 0 < k →
    (closeTag.drop k).isPrefixOf openTag = false := by decide

theorem take_close_sfx_open : ∀ k, k < closeTag.length → 0 < k →
    (closeTag.take k).isSuffixOf openTag = false := by decide

theorem take_open_sfx_close : ∀ k, k < openTag.length → 0 < k →
    (openTag.take k).isSuffixOf closeTag = false := by decide

theorem cs_open_close : containsSub openTag closeTag = false := by decide

theorem cs_close_open : containsSub closeTag openTag = false := by decide

/-- A failed prefix test against `l` stays failed against `l ++ t` when the
pattern is no longer than `l`. -/
theorem isPrefixOf_concat_false (x l t : List Char)
    (hlen : x.length ≤ l.length) (hx : x.isPrefixOf l = false) :
    x.isPrefixOf (l ++ t) = false := by
  cases hq : x.isPrefixOf (l ++ t) with
  | false => rfl
  | true =>
    rw [(isPrefixOf_append_iff x l t hlen).mp hq] at hx
    exact Bool.noConfusion hx

/-! Whitespace lemmas. -/

theorem containsSub_ws_false (c0 : Char) (cs0 w : List Char)
    (hc0 : pyIsSpace c0 = false) (hw : wsOnly w = true) :
    containsSub (c0 :: cs0) w = false := by
  induction w with
  | nil => rfl
  | cons d w' ih =>
    simp only [wsOnly, List.all_cons, Bool.and_eq_true] at hw
    have hd : pyIsSpace d = true := hw.1
    have hcd : (c0 == d) = false := by
      cases hx : c0 == d with
      | false => rfl
      | true =>
        rw [(beq_iff_eq).mp hx, hd] at hc0
        exact Bool.noConfusion hc0
    simp only [containsSub, Bool.or_eq_false_iff]
    exact ⟨by simp [List.isPrefixOf, hcd], ih hw.2⟩

theorem dropWhile_ws_append (w : List Char) (z0 : Char) (zs : List Char)
    (hw : wsOnly w = true) (hz : pyIsSpace z0 = false) :
    (w ++ (z0 :: zs)).dropWhile pyIsSpace = z0 :: zs := by
  induction w with
  | nil => simp [List.dropWhile, hz]
  | cons d w' ih =>
    simp only [wsOnly, List.all_cons, Bool.and_eq_true] at hw
    simp only [List.cons_append, List.dropWhile, hw.1]
    exact ih hw.2

/-! Skip-counter elimination. -/

theorem countOccurAux_skip (pat : List Char) (j : Nat) (l : List Char) :
    countOccurAux pat j l = countOccurAux pat 0 (l.drop j) := by
  induction j generalizing l with
  | zero => simp
  | succ m ih =>
    cases l with
    | nil => rfl
    | cons c rest =>
      simp only [countOccurAux, List.drop_succ_cons]
      exact ih rest

theorem removeAllAux_skip (pat : List Char) (j : Nat) (l : List Char) :
    removeAllAux pat j l = removeAllAux pat 0 (l.drop j) := by
  induction j generalizing l with
  | zero => simp
  | succ m ih =>
    cases l with
    | nil => rfl
    | cons c rest =>
      simp only [removeAllAux, List.drop_succ_cons]
      exact ih rest

theorem splitSepAux_skip (j : Nat) (acc l : List Char) :
    splitSepAux j acc l = splitSepAux 0 acc (l.drop j) := by
  induction j generalizing l with
  | zero => simp
  | succ m ih =>
    cases l with
    | nil => rfl
    | cons c rest =>
      simp only [splitSepAux, List.drop_succ_cons]
      exact ih rest

/-! Scanning through a region with no match start. -/

theorem countOccurAux_head (pat t : List Char) (hne : pat ≠ []) :
    countOccurAux pat 0 (pat ++ t) = 1 + countOccurAux pat 0 t := by
  cases pat with
  | nil => exact absurd rfl hne
  | cons c cs =>
    have hpre : (c :: cs).isPrefixOf (c :: (cs ++ t)) = true :=
      isPrefixOf_self_append (c :: cs) t
    simp only [List.cons_append, countOccurAux, List.append_eq, hpre, if_true]
    rw [countOccurAux_skip]
    have : (cs ++ t).drop ((c :: cs).length - 1) = t := by
      simp only [List.length_cons, Nat.add_sub_cancel]
      exact List.drop_left cs t
    rw [this]

theorem removeAllAux_head (pat t : List Char) (hne : pat ≠ []) :
    removeAllAux pat 0 (pat ++ t) = removeAllAux pat 0 t := by
  cases pat with
  | nil => exact absurd rfl hne
  | cons c cs =>
    have hpre : (c :: cs).isPrefixOf (c :: (cs ++ t)) = true :=
      isPrefixOf_self_append (c :: cs) t
    simp only [List.cons_append, removeAllAux, List.append_eq, hpre, if_true]
    rw [removeAllAux_skip]
    have : (cs ++ t).drop ((c :: cs).length - 1) = t := by
      simp only [List.length_cons, Nat.add_sub_cancel]
      exact List.drop_left cs t
    rw [this]

theorem countOccurAux_pass_A (pat l q : List Char)
    (hp : containsSub pat l = false)
    (h2 : ∀ k, k < pat.length → 0 < k →
      (pat.drop k).isPrefixOf q = false) :
    countOccurAux pat 0 (l ++ q) = countOccurAux pat 0 q := by
  induction l with
  | nil => rfl
  | cons c rest ih =>
    simp only [containsSub, Bool.or_eq_false_iff] at hp
    have hfalse := isPrefixOf_append_false_A pat (c :: rest) q (by simp)
      hp.1 h2
    simp only [List.cons_append] at hfalse
    simp only [List.cons_append, countOccurAux, List.append_eq, hfalse,
      Bool.false_eq_true, if_false]
    exact ih hp.2

theorem countOccurAux_pass_B (pat l q : List Char)
    (hp : containsSub pat l = false)
    (h2 : ∀ k, k < pat.length → 0 < k →
      (pat.take k).isSuffixOf l = false) :
    countOccurAux pat 0 (l ++ q) = countOccurAux pat 0 q := by
  induction l with
  | nil => rfl
  | cons c rest ih =>
    simp only [containsSub, Bool.or_eq_false_iff] at hp
    have hfalse := isPrefixOf_append_false_B pat (c :: rest) q (by simp)
      hp.1
      (fun k hk h0 heq => by
        have hs := h2 k hk h0
        rw [heq, isSuffixOf_rfl] at hs
        exact Bool.noConfusion hs)
    simp only [List.cons_append] at hfalse
    simp only [List.cons_append, countOccurAux, List.append_eq, hfalse,
      Bool.false_eq_true, if_false]
    refine ih hp.2 (fun k hk h0 => ?_)
    cases hx : (pat.take k).isSuffixOf rest with
    | false => rfl
    | true =>
      have hext := isSuffixOf_cons _ rest c hx
      rw [h2 k hk h0] at hext
      exact Bool.noConfusion hext

theorem removeAllAux_no_match (pat l : List Char)
    (hp : containsSub pat l = false) : removeAllAux pat 0 l = l := by
  induction l with
  | nil => rfl
  | cons c rest ih =>
    simp only [containsSub, Bool.or_eq_false_iff] at hp
    simp only [removeAllAux, hp.1, Bool.false_eq_true, if_false]
    rw [ih hp.2]

/-- `replace(pat, "")` on a text that is a clean region followed by exactly
one trailing occurrence of a border-free pattern removes that occurrence. -/
theorem removeAllAux_trailing (pat l : List Char) (hne : pat ≠ [])
    (hp : containsSub pat l = false)
    (hb : ∀ k, k < pat.length → 0 < k →
      (pat.drop k).isPrefixOf pat = false) :
    removeAllAux pat 0 (l ++ pat) = l := by
  induction l with
  | nil =>
    have h := removeAllAux_head pat [] hne
    simpa using h
  | cons c rest ih =>
    simp only [containsSub, Bool.or_eq_false_iff] at hp
    have hfalse := isPrefixOf_append_false_A pat (c :: rest) pat (by simp)
      hp.1 hb
    simp only [List.cons_append] at hfalse
    simp only [List.cons_append, removeAllAux, List.append_eq, hfalse,
      Bool.false_eq_true, if_false]
    rw [ih hp.2]

/-! Junction facts: a proper tail of one tag cannot start a match of the
other (or the same) tag right after the region border. -/

theorem h2_close_at_close (W : List Char) :
    ∀ k, k < closeTag.length → 0 < k →
      (closeTag.drop k).isPrefixOf (closeTag ++ W) = false := by
  intro k hk h0
  refine isPrefixOf_concat_false _ closeTag W ?_ (drop_close_close k hk h0)
  simp [List.length_drop]

theorem h2_open_at_close (W : List Char) :
    ∀ k, k < openTag.length → 0 < k →
      (openTag.drop k).isPrefixOf (closeTag ++ W) = false := by
  intro k hk h0
  refine isPrefixOf_concat_false _ closeTag W ?_ (drop_open_close k hk h0)
  simp only [List.length_drop, openTag, closeTag, List.length_cons,
    List.length_nil]
  omega

theorem h2_open_at_open (W : List Char) :
    ∀ k, k < openTag.length → 0 < k →
      (openTag.drop k).isPrefixOf (openTag ++ W) = false := by
  intro k hk h0
  refine isPrefixOf_concat_false _ openTag W ?_ (drop_open_open k hk h0)
  simp [List.length_drop]

theorem h2_close_at_open (W : List Char) :
    ∀ k, k < closeTag.length → 0 < k →
      (closeTag.drop k).isPrefixOf (openTag ++ W) = false := by
  intro k hk h0
  refine isPrefixOf_concat_false _ openTag W ?_ (drop_close_open k hk h0)
  simp only [List.length_drop, openTag, closeTag, List.length_cons,
    List.length_nil]
  omega

/-! The separator matcher. -/

theorem matchSepLen_none (s : List Char)
    (h : closeTag.isPrefixOf s = false) : matchSepLen s = none := by
  simp [matchSepLen, h]

theorem matchSepLen_sep (w X : List Char) (hw : wsOnly w = true) :
    matchSepLen (closeTag ++ (w ++ (openTag ++ X))) =
      some (closeTag.length + w.length + openTag.length) := by
  have hdw : (w ++ (openTag ++ X)).dropWhile pyIsSpace = openTag ++ X := by
    have := dropWhile_ws_append w '<'
      (['c', 'h', 'u', 'n', 'k', '>'] ++ X) hw (by decide)
    simpa [openTag] using this
  simp only [matchSepLen, isPrefixOf_self_append, if_true, List.drop_left,
    hdw, Option.some.injEq]
  simp only [List.length_append, openTag, closeTag, List.length_cons,
    List.length_nil]
  omega

theorem splitSepAux_match (c : Char) (rest acc : List Char) (n : Nat)
    (hm : matchSepLen (c :: rest) = some n) :
    splitSepAux 0 acc (c :: rest) =
      acc.reverse :: splitSepAux 0 [] (rest.drop (n - 1)) := by
  simp only [splitSepAux, hm]
  rw [splitSepAux_skip]

theorem splitSepAux_sep (acc w X : List Char) (hw : wsOnly w = true) :
    splitSepAux 0 acc (closeTag ++ (w ++ (openTag ++ X))) =
      acc.reverse :: splitSepAux 0 [] X := by
  have hm := matchSepLen_sep w X hw
  have hs : closeTag ++ (w ++ (openTag ++ X)) =
      '<' :: (['/', 'c', 'h', 'u', 'n', 'k', '>'] ++ (w ++ (openTag ++ X))) :=
    rfl
  rw [hs] at hm ⊢
  rw [splitSepAux_match '<' _ acc _ hm]
  congr 1
  have hd : (['/', 'c', 'h', 'u', 'n', 'k', '>'] ++ (w ++ (openTag ++ X))).drop
      (closeTag.length + w.length + openTag.length - 1) = X := by
    rw [show ['/', 'c', 'h', 'u', 'n', 'k', '>'] ++ (w ++ (openTag ++ X)) =
        ((['/', 'c', 'h', 'u', 'n', 'k', '>'] ++ w) ++ openTag) ++ X by
      simp [List.append_assoc]]
    rw [show closeTag.length + w.length + openTag.length - 1 =
        ((['/', 'c', 'h', 'u', 'n', 'k', '>'] ++ w) ++ openTag).length by
      simp only [List.length_append, closeTag, openTag, List.length_cons,
        List.length_nil]
      omega]
    exact List.drop_left _ X
  rw [hd]

/-! Regions without separator matches. -/

theorem noSep_run (t : List Char) (h : noSep t = true) :
    ∀ acc, splitSepAux 0 acc t = [acc.reverse ++ t] := by
  induction t with
  | nil => intro acc; simp [splitSepAux]
  | cons c rest ih =>
    intro acc
    simp only [noSep, Bool.and_eq_true, Option.isNone_iff_eq_none] at h
    simp only [splitSepAux, h.1]
    rw [ih h.2 (c :: acc)]
    simp

theorem noSep_append_close (q : List Char)
    (hq : containsSub closeTag q = false) : noSep (q ++ closeTag) = true := by
  induction q with
  | nil => decide
  | cons c rest ih =>
    simp only [containsSub, Bool.or_eq_false_iff] at hq
    have hfalse := isPrefixOf_append_false_A closeTag (c :: rest) closeTag
      (by simp) hq.1 drop_close_close
    simp only [List.cons_append] at hfalse
    have hm : matchSepLen (c :: (rest ++ closeTag)) = none :=
      matchSepLen_none _ hfalse
    simp only [List.cons_append, List.append_eq, noSep, hm,
      Option.isNone_none, Bool.true_and]
    exact ih hq.2

theorem splitSepAux_pass_A (l q : List Char)
    (hp : containsSub closeTag l = false)
    (h2 : ∀ k, k < closeTag.length → 0 < k →
      (closeTag.drop k).isPrefixOf q = false) :
    ∀ acc, splitSepAux 0 acc (l ++ q) = splitSepAux 0 (l.reverse ++ acc) q := by
  induction l with
  | nil => intro acc; simp
  | cons c rest ih =>
    intro acc
    simp only [containsSub, Bool.or_eq_false_iff] at hp
    have hfalse := isPrefixOf_append_false_A closeTag (c :: rest) q (by simp)
      hp.1 h2
    simp only [List.cons_append] at hfalse
    have hm : matchSepLen (c :: (rest ++ q)) = none :=
      matchSepLen_none _ hfalse
    simp only [List.cons_append, List.append_eq, splitSepAux, hm]
    rw [ih hp.2 (c :: acc)]
    simp

theorem splitSepAux_pass_B (l q : List Char)
    (hp : containsSub closeTag l = false)
    (h2 : ∀ k, k < closeTag.length → 0 < k →
      (closeTag.take k).isSuffixOf l = false) :
    ∀ acc, splitSepAux 0 acc (l ++ q) = splitSepAux 0 (l.reverse ++ acc) q := by
  induction l with
  | nil => intro acc; simp
  | cons c rest ih =>
    intro acc
    simp only [containsSub, Bool.or_eq_false_iff] at hp
    have hfalse := isPrefixOf_append_false_B closeTag (c :: rest) q (by simp)
      hp.1
      (fun k hk h0 heq => by
        have hs := h2 k hk h0
        rw [heq, isSuffixOf_rfl] at hs
        exact Bool.noConfusion hs)
    simp only [List.cons_append] at hfalse
    have hm : matchSepLen (c :: (rest ++ q)) = none :=
      matchSepLen_none _ hfalse
    simp only [List.cons_append, List.append_eq, splitSepAux, hm]
    rw [ih hp.2 (fun k hk h0 => ?_) (c :: acc)]
    · simp
    · cases hx : (closeTag.take k).isSuffixOf rest with
      | false => rfl
      | true =>
        have hext := isSuffixOf_cons _ rest c hx
        rw [h2 k hk h0] at hext
        exact Bool.noConfusion hext

theorem goodPart_spec (p : List Char) (h : goodPart p = true) :
    containsSub openTag p = false ∧ containsSub closeTag p = false := by
  simp only [goodPart, Bool.and_eq_true, Bool.not_eq_true'] at h
  exact h

theorem middlePieces_ne_nil (p : List Char)
    (rest : List (List Char × List Char)) : middlePieces p rest ≠ [] := by
  cases rest with
  | nil => simp [middlePieces]
  | cons pr rest' =>
    obtain ⟨w, q⟩ := pr
    simp [middlePieces]

theorem splitSepAux_mkBody (rest : List (List Char × List Char)) :
    ∀ p acc, containsSub closeTag p = false →
    (∀ pr ∈ rest, wsOnly pr.1 = true ∧ containsSub closeTag pr.2 = false) →
    splitSepAux 0 acc (mkBody p rest) =
      modifyHead (fun x => acc.reverse ++ x) (middlePieces p rest) := by
  induction rest with
  | nil =>
    intro p acc hp _
    have hns := noSep_append_close p hp
    rw [show mkBody p [] = p ++ closeTag from rfl]
    rw [noSep_run _ hns acc]
    rfl
  | cons pr rest' ih =>
    intro p acc hp hrest
    obtain ⟨w, q⟩ := pr
    have hw : wsOnly w = true := (hrest (w, q) (by simp)).1
    have hq : containsSub closeTag q = false := (hrest (w, q) (by simp)).2
    have hbody : mkBody p ((w, q) :: rest') =
        p ++ (closeTag ++ (w ++ (openTag ++ mkBody q rest'))) := by
      simp [mkBody, List.append_assoc]
    rw [hbody]
    rw [splitSepAux_pass_A p _ hp (h2_close_at_close _) acc]
    rw [splitSepAux_sep (p.reverse ++ acc) w _ hw]
    rw [ih q [] hq (fun x hx => hrest x (by simp [hx]))]
    have hid : modifyHead (fun x => ([] : List Char).reverse ++ x)
        (middlePieces q rest') = middlePieces q rest' := by
      cases middlePieces q rest' <;> simp [modifyHead]
    rw [hid]
    show (p.reverse ++ acc).reverse :: middlePieces q rest' =
      (acc.reverse ++ p) :: middlePieces q rest'
    simp

theorem splitSep_mkContent (p : List Char)
    (rest : List (List Char × List Char))
    (hp : containsSub closeTag p = false)
    (hrest : ∀ pr ∈ rest, wsOnly pr.1 = true ∧
      containsSub closeTag pr.2 = false) :
    splitSep (mkContent p rest) =
      modifyHead (fun x => openTag ++ x) (middlePieces p rest) := by
  unfold splitSep mkContent
  rw [splitSepAux_pass_B openTag (mkBody p rest) cs_close_open
    take_close_sfx_open []]
  rw [splitSepAux_mkBody rest p (openTag.reverse ++ []) hp hrest]
  cases middlePieces p rest <;> simp [modifyHead]

/-! Tag counting over generated content. -/

theorem count_open_body (rest : List (List Char × List Char)) :
    ∀ p, containsSub openTag p = false →
    (∀ pr ∈ rest, wsOnly pr.1 = true ∧ containsSub openTag pr.2 = false) →
    countOccurAux openTag 0 (mkBody p rest) = rest.length := by
  induction rest with
  | nil =>
    intro p hp _
    rw [show mkBody p [] = p ++ closeTag from rfl]
    rw [countOccurAux_pass_A openTag p closeTag hp drop_open_close]
    decide
  | cons pr rest' ih =>
    intro p hp hrest
    obtain ⟨w, q⟩ := pr
    have hw : wsOnly w = true := (hrest (w, q) (by simp)).1
    have hq : containsSub openTag q = false := (hrest (w, q) (by simp)).2
    have hwopen : containsSub openTag w = false :=
      containsSub_ws_false '<' ['c', 'h', 'u', 'n', 'k', '>'] w (by decide) hw
    have hbody : mkBody p ((w, q) :: rest') =
        p ++ (closeTag ++ (w ++ (openTag ++ mkBody q rest'))) := by
      simp [mkBody, List.append_assoc]
    rw [hbody]
    rw [countOccurAux_pass_A openTag p _ hp (h2_open_at_close _)]
    rw [countOccurAux_pass_B openTag closeTag _ cs_open_close
      take_open_sfx_close]
    rw [countOccurAux_pass_A openTag w _ hwopen (h2_open_at_open _)]
    rw [countOccurAux_head openTag _ openTag_ne_nil]
    rw [ih q hq (fun x hx => hrest x (by simp [hx]))]
    simp [Nat.add_comm]

theorem count_close_body (rest : List (List Char × List Char)) :
    ∀ p, containsSub closeTag p = false →
    (∀ pr ∈ rest, wsOnly pr.1 = true ∧ containsSub closeTag pr.2 = false) →
    countOccurAux closeTag 0 (mkBody p rest) = rest.length + 1 := by
  induction rest with
  | nil =>
    intro p hp _
    rw [show mkBody p [] = p ++ closeTag from rfl]
    rw [countOccurAux_pass_A closeTag p closeTag hp drop_close_close]
    decide
  | cons pr rest' ih =>
    intro p hp hrest
    obtain ⟨w, q⟩ := pr
    have hw : wsOnly w = true := (hrest (w, q) (by simp)).1
    have hq : containsSub closeTag q = false := (hrest (w, q) (by simp)).2
    have hwclose : containsSub closeTag w = false :=
      containsSub_ws_false '<' ['/', 'c', 'h', 'u', 'n', 'k', '>'] w
        (by decide) hw
    have hbody : mkBody p ((w, q) :: rest') =
        p ++ (closeTag ++ (w ++ (openTag ++ mkBody q rest'))) := by
      simp [mkBody, List.append_assoc]
    rw [hbody]
    rw [countOccurAux_pass_A closeTag p _ hp (h2_close_at_close _)]
    rw [countOccurAux_head closeTag _ closeTag_ne_nil]
    rw [countOccurAux_pass_A closeTag w _ hwclose (h2_close_at_open _)]
    rw [countOccurAux_pass_B closeTag openTag _ cs_close_open
      take_close_sfx_open]
    rw [ih q hq (fun x hx => hrest x (by simp [hx]))]
    simp [Nat.add_comm]

theorem countOccur_open_content (p : List Char)
    (rest : List (List Char × List Char))
    (hp : containsSub openTag p = false)
    (hrest : ∀ pr ∈ rest, wsOnly pr.1 = true ∧
      containsSub openTag pr.2 = false) :
    countOccur openTag (mkContent p rest) = rest.length + 1 := by
  unfold countOccur mkContent
  rw [countOccurAux_head openTag _ openTag_ne_nil]
  rw [count_open_body rest p hp hrest]
  omega

theorem countOccur_close_content (p : List Char)
    (rest : List (List Char × List Char))
    (hp : containsSub closeTag p = false)
    (hrest : ∀ pr ∈ rest, wsOnly pr.1 = true ∧
      containsSub closeTag pr.2 = false) :
    countOccur closeTag (mkContent p rest) = rest.length + 1 := by
  unfold countOccur mkContent
  rw [countOccurAux_pass_B closeTag openTag _ cs_close_open
    take_close_sfx_open]
  exact count_close_body rest p hp hrest

/-! The nested-pair check. -/

theorem afterFirst_self_append (pat t : List Char) (hne : pat ≠ []) :
    afterFirst pat (pat ++ t) = some t := by
  cases pat with
  | nil => exact absurd rfl hne
  | cons c cs =>
    have hpre : (c :: cs).isPrefixOf (c :: (cs ++ t)) = true :=
      isPrefixOf_self_append (c :: cs) t
    simp only [List.cons_append, afterFirst, List.append_eq, hpre, if_true,
      Option.some.injEq]
    rw [show (c :: (cs ++ t)).drop ((c :: cs).length) =
        (cs ++ t).drop cs.length by simp]
    exact List.drop_left cs t

theorem containsSub_close_mkBody (p : List Char)
    (rest : List (List Char × List Char)) :
    containsSub closeTag (mkBody p rest) = true := by
  cases rest with
  | nil =>
    rw [show mkBody p [] = p ++ closeTag from rfl]
    exact containsSub_append_right closeTag p closeTag (by decide)
  | cons pr rest' =>
    obtain ⟨w, q⟩ := pr
    rw [show mkBody p ((w, q) :: rest') =
        p ++ (closeTag ++ (w ++ (openTag ++ mkBody q rest'))) by
      simp [mkBody, List.append_assoc]]
    exact containsSub_append_right _ p _
      (containsSub_self_append closeTag _ closeTag_ne_nil)

theorem hasChunkPair_mkContent (p : List Char)
    (rest : List (List Char × List Char)) :
    hasChunkPair (mkContent p rest) = true := by
  unfold hasChunkPair mkContent
  rw [afterFirst_self_append openTag _ openTag_ne_nil]
  exact containsSub_close_mkBody p rest

theorem validate_mkContent (p : List Char)
    (rest : List (List Char × List Char)) (hp : goodPart p = true)
    (hrest : ∀ pr ∈ rest, wsOnly pr.1 = true ∧ goodPart pr.2 = true) :
    validate_chunks (mkContent p rest) = true := by
  have hpo := (goodPart_spec p hp).1
  have hpc := (goodPart_spec p hp).2
  have hro : ∀ pr ∈ rest, wsOnly pr.1 = true ∧
      containsSub openTag pr.2 = false :=
    fun pr hx => ⟨(hrest pr hx).1, (goodPart_spec _ (hrest pr hx).2).1⟩
  have hrc : ∀ pr ∈ rest, wsOnly pr.1 = true ∧
      containsSub closeTag pr.2 = false :=
    fun pr hx => ⟨(hrest pr hx).1, (goodPart_spec _ (hrest pr hx).2).2⟩
  have h1 : containsSub openTag (mkContent p rest) = true := by
    unfold mkContent
    exact containsSub_self_append _ _ openTag_ne_nil
  have h2 : containsSub closeTag (mkContent p rest) = true := by
    unfold mkContent
    exact containsSub_append_right _ _ _ (containsSub_close_mkBody p rest)
  have h3 := countOccur_open_content p rest hpo hro
  have h4 := countOccur_close_content p rest hpc hrc
  have h5 := hasChunkPair_mkContent p rest
  have hz : ((rest.length + 1 : Nat) == 0) = false :=
    beq_eq_false_iff_ne.mpr (Nat.succ_ne_zero _)
  simp [validate_chunks, h1, h2, h3, h4, h5, hz]

/-! Stripping the tags off the first and last pieces. -/

theorem modifyLast_middlePieces (rest : List (List Char × List Char)) :
    ∀ q, containsSub closeTag q = false →
    (∀ pr ∈ rest, containsSub closeTag pr.2 = false) →
    modifyLast (removeAll closeTag) (middlePieces q rest) =
      innerParts q rest := by
  induction rest with
  | nil =>
    intro q hq _
    show [removeAll closeTag (q ++ closeTag)] = [q]
    rw [show removeAll closeTag (q ++ closeTag) =
        removeAllAux closeTag 0 (q ++ closeTag) from rfl]
    rw [removeAllAux_trailing closeTag q closeTag_ne_nil hq
      drop_close_close]
  | cons pr rest' ih =>
    intro q hq hrest
    obtain ⟨w, q2⟩ := pr
    have hq2 : containsSub closeTag q2 = false := hrest (w, q2) (by simp)
    cases hmp : middlePieces q2 rest' with
    | nil => exact absurd hmp (middlePieces_ne_nil q2 rest')
    | cons h t =>
      rw [show middlePieces q ((w, q2) :: rest') =
          q :: middlePieces q2 rest' from rfl]
      rw [hmp]
      rw [show modifyLast (removeAll closeTag) (q :: h :: t) =
          q :: modifyLast (removeAll closeTag) (h :: t) from rfl]
      rw [← hmp]
      rw [ih q2 hq2 (fun x hx => hrest x (by simp [hx]))]
      rfl

theorem map_strip_innerParts (rest : List (List Char × List Char)) :
    ∀ p, (innerParts p rest).map stripChars =
      stripChars p :: rest.map (fun pr => stripChars pr.2) := by
  induction rest with
  | nil => intro p; rfl
  | cons pr rest' ih =>
    intro p
    obtain ⟨w, q⟩ := pr
    show stripChars p :: (innerParts q rest').map stripChars =
      stripChars p :: stripChars q :: rest'.map (fun pr => stripChars pr.2)
    rw [ih q]

/-- split_into_chunks on a document of well-formed blocks returns the
stripped inner parts in document order. -/
theorem split_into_chunks_mkContent (p : List Char)
    (rest : List (List Char × List Char)) (hp : goodPart p = true)
    (hrest : ∀ pr ∈ rest, wsOnly pr.1 = true ∧ goodPart pr.2 = true) :
    split_into_chunks (mkContent p rest) =
      .ok (stripChars p :: rest.map (fun pr => stripChars pr.2)) := by
  have hv := validate_mkContent p rest hp hrest
  have hpo := (goodPart_spec p hp).1
  have hpc := (goodPart_spec p hp).2
  have hrc : ∀ pr ∈ rest, wsOnly pr.1 = true ∧
      containsSub closeTag pr.2 = false :=
    fun pr hx => ⟨(hrest pr hx).1, (goodPart_spec _ (hrest pr hx).2).2⟩
  unfold split_into_chunks
  rw [hv, if_pos rfl]
  rw [splitSep_mkContent p rest hpc hrc]
  cases rest with
  | nil =>
    have hcs : containsSub openTag (p ++ closeTag) = false :=
      containsSub_append_false_A openTag p closeTag hpo cs_open_close
        drop_open_close
    have hrm : removeAll openTag (openTag ++ (p ++ closeTag)) =
        p ++ closeTag := by
      rw [show removeAll openTag (openTag ++ (p ++ closeTag)) =
          removeAllAux openTag 0 (openTag ++ (p ++ closeTag)) from rfl]
      rw [removeAllAux_head openTag _ openTag_ne_nil]
      exact removeAllAux_no_match openTag _ hcs
    have hrm2 : removeAll closeTag (p ++ closeTag) = p := by
      rw [show removeAll closeTag (p ++ closeTag) =
          removeAllAux closeTag 0 (p ++ closeTag) from rfl]
      exact removeAllAux_trailing closeTag p closeTag_ne_nil hpc
        drop_close_close
    show Except.ok
        ((modifyLast (removeAll closeTag)
          (modifyHead (removeAll openTag)
            [openTag ++ (p ++ closeTag)])).map stripChars) = _
    rw [show modifyHead (removeAll openTag) [openTag ++ (p ++ closeTag)] =
        [removeAll openTag (openTag ++ (p ++ closeTag))] from rfl]
    rw [hrm]
    rw [show modifyLast (removeAll closeTag) [p ++ closeTag] =
        [removeAll closeTag (p ++ closeTag)] from rfl]
    rw [hrm2]
    rfl
  | cons pr rest' =>
    obtain ⟨w, q⟩ := pr
    have hrm : removeAll openTag (openTag ++ p) = p := by
      rw [show removeAll openTag (openTag ++ p) =
          removeAllAux openTag 0 (openTag ++ p) from rfl]
      rw [removeAllAux_head openTag _ openTag_ne_nil]
      exact removeAllAux_no_match openTag _ hpo
    have hq : containsSub closeTag q = false :=
      (goodPart_spec _ ((hrest (w, q) (by simp)).2)).2
    have hml := modifyLast_middlePieces rest' q hq
      (fun x hx => (goodPart_spec _ ((hrest x (by simp [hx])).2)).2)
    cases hmp : middlePieces q rest' with
    | nil => exact absurd hmp (middlePieces_ne_nil q rest')
    | cons h t =>
      show Except.ok
          ((modifyLast (removeAll closeTag)
            (modifyHead (removeAll openTag)
              ((openTag ++ p) :: middlePieces q rest'))).map stripChars) = _
      rw [show modifyHead (removeAll openTag)
          ((openTag ++ p) :: middlePieces q rest') =
          removeAll openTag (openTag ++ p) :: middlePieces q rest' from rfl]
      rw [hrm, hmp]
      rw [show modifyLast (removeAll closeTag) (p :: h :: t) =
          p :: modifyLast (removeAll closeTag) (h :: t) from rfl]
      rw [← hmp, hml]
      rw [show ((p :: innerParts q rest').map stripChars) =
          (innerParts p ((w, q) :: rest')).map stripChars from rfl]
      rw [map_strip_innerParts ((w, q) :: rest') p]

/-- C10: for every content string consisting of n >= 1 well-formed
chunk-tagged blocks separated only by whitespace -- built by `mkContent` from
a first inner part and a list of (separator, inner part) pairs, with each
inner part free of tag literals and each separator whitespace-only --
`split_into_chunks` succeeds and returns exactly n strings: the inner
content of each block, stripped of leading and trailing whitespace, in
document order. -/
theorem c10_split_returns_stripped_parts (p : List Char)
    (rest : List (List Char × List Char)) (hp : goodPart p = true)
    (hrest : ∀ pr ∈ rest, wsOnly pr.1 = true ∧ goodPart pr.2 = true) :
    split_into_chunks (mkContent p rest) =
      .ok (stripChars p :: rest.map (fun pr => stripChars pr.2)) ∧
    (stripChars p :: rest.map (fun pr => stripChars pr.2)).length =
      rest.length + 1 := by
  refine ⟨split_into_chunks_mkContent p rest hp hrest, ?_⟩
  simp

/-- Witness for C10 with two blocks whose inner parts carry surrounding
whitespace: the parser returns the two stripped parts in order. -/
theorem c10_split_returns_stripped_parts_witness :
    goodPart [' ', 'a', 'l', ' '] = true ∧
    (∀ pr ∈ [([' ', '\n'], ['b', 'e'])],
      wsOnly pr.1 = true ∧ goodPart pr.2 = true) ∧
    (split_into_chunks
        (mkContent [' ', 'a', 'l', ' '] [([' ', '\n'], ['b', 'e'])]) =
      .ok (stripChars [' ', 'a', 'l', ' '] ::
        [([' ', '\n'], ['b', 'e'])].map (fun pr => stripChars pr.2)) ∧
    (stripChars [' ', 'a', 'l', ' '] ::
        [([' ', '\n'], ['b', 'e'])].map (fun pr => stripChars pr.2)).length =
      [([' ', '\n'], ['b', 'e'])].length + 1) :=
  ⟨by decide, by decide,
    c10_split_returns_stripped_parts [' ', 'a', 'l', ' ']
      [([' ', '\n'], ['b', 'e'])] (by decide) (by decide)⟩

end ChunkyReader
